import Mathlib

/-!
Verification development for the nonlinear multigrid (FAS) and spectral
coarsening core of the smoothG repository.

The definitions below are shallow embeddings of the C++ source:

* `FAS_CycleAux`, `solveLoop`, `Solve` embed `NonlinearMG::FAS_Cycle` and
  `NonlinearMG::Solve` from `src/NonlinearSolver.cpp`.  Vectors are an
  abstract type `V`; the per-level operator `A` (virtual `Mult`), the
  transfer operators, the smoother and the coarsest-level solve are fields
  of `FASOps`, mirroring the pure-virtual interface of the C++ class.
  The level-indexed arrays `rhs_`, `sol_`, `help_` become the fields of
  `FASState`.
* `PicardStep`, `BackTracking`, `btLoop`, `residualNormL` embed
  `LevelSolver::PicardStep` and `LevelSolver::BackTracking` from
  `examples/nldarcy.cpp`.
* `SetMFromWeightVector`, `csrEntry` embed `MixedMatrix::SetMFromWeightVector`;
  `constructDColVerts`, `dRowVals`, `constructDEntry` embed
  `MixedMatrix::ConstructD`.
* `hRestrict`, `hInterpolate`, `hProject` and `levelSolve` are modelled from
  the spec, since `Hierarchy`'s transfer implementations and the generic
  `NonlinearSolver::Solve` level loop are not among the source files.
-/

namespace SmoothG

/-- Multigrid cycle type, from `enum Cycle { V_CYCLE, FMG }` in
`NonlinearSolver.hpp`. -/
inductive Cycle where
  | V_CYCLE : Cycle
  | FMG : Cycle
deriving DecidableEq

/-- The per-level vectors of `NonlinearMG`: `rhs_`, `sol_` and `help_`,
each a level-indexed family of vectors. -/
structure FASState (V : Type) where
  rhs : ℕ → V
  sol : ℕ → V
  help : ℕ → V

/-- Write the solution vector of one level (assignment `sol_[l] = v`). -/
def setSol {V : Type} (s : FASState V) (l : ℕ) (v : V) : FASState V :=
  { s with sol := fun m => if m = l then v else s.sol m }

/-- Write the right-hand side vector of one level (assignment `rhs_[l] = v`). -/
def setRhs {V : Type} (s : FASState V) (l : ℕ) (v : V) : FASState V :=
  { s with rhs := fun m => if m = l then v else s.rhs m }

/-- Write the scratch vector of one level (assignment `help_[l] = v`). -/
def setHelp {V : Type} (s : FASState V) (l : ℕ) (v : V) : FASState V :=
  { s with help := fun m => if m = l then v else s.help m }

@[simp] theorem setSol_sol {V : Type} (s : FASState V) (l m : ℕ) (v : V) :
    (setSol s l v).sol m = if m = l then v else s.sol m := rfl

@[simp] theorem setSol_rhs {V : Type} (s : FASState V) (l m : ℕ) (v : V) :
    (setSol s l v).rhs m = s.rhs m := rfl

@[simp] theorem setSol_help {V : Type} (s : FASState V) (l m : ℕ) (v : V) :
    (setSol s l v).help m = s.help m := rfl

@[simp] theorem setRhs_rhs {V : Type} (s : FASState V) (l m : ℕ) (v : V) :
    (setRhs s l v).rhs m = if m = l then v else s.rhs m := rfl

@[simp] theorem setRhs_sol {V : Type} (s : FASState V) (l m : ℕ) (v : V) :
    (setRhs s l v).sol m = s.sol m := rfl

@[simp] theorem setRhs_help {V : Type} (s : FASState V) (l m : ℕ) (v : V) :
    (setRhs s l v).help m = s.help m := rfl

@[simp] theorem setHelp_help {V : Type} (s : FASState V) (l m : ℕ) (v : V) :
    (setHelp s l v).help m = if m = l then v else s.help m := rfl

@[simp] theorem setHelp_sol {V : Type} (s : FASState V) (l m : ℕ) (v : V) :
    (setHelp s l v).sol m = s.sol m := rfl

@[simp] theorem setHelp_rhs {V : Type} (s : FASState V) (l m : ℕ) (v : V) :
    (setHelp s l v).rhs m = s.rhs m := rfl

/-- The virtual interface of `NonlinearMG` (`NonlinearSolver.cpp` /
`NonlinearSolver.hpp`): the nonlinear per-level operator `A` (virtual
`Mult(level, x, Ax)`), the transfer operators `restrict`, `interpolate`,
`project`, the per-level relaxation `smoothing`, the coarsest-level solver
`coarseSolve` (virtual `Solve(level, rhs, sol)`), the true-dof assembly and
the norm used in `NonlinearSolver::ResidualNorm`, together with the member
data `num_levels_` and `cycle_`. -/
structure FASOps (V : Type) where
  numLevels : ℕ
  cycle : Cycle
  A : ℕ → V → V
  restrictOp : ℕ → V → V
  interpolate : ℕ → V → V
  project : ℕ → V → V
  smoothing : ℕ → V → V → V
  coarseSolve : ℕ → V → V → V
  assembleTrue : V → V
  norm : V → ℚ

/-- Pre-smoothing step of `NonlinearMG::FAS_Cycle` (lines 101-105):
`Smoothing(level, rhs_[level], sol_[level])` is performed only when
`cycle_ == V_CYCLE`. -/
def presmoothState {V : Type} (ops : FASOps V) (level : ℕ) (s : FASState V) :
    FASState V :=
  if ops.cycle = Cycle.V_CYCLE then
    setSol s level (ops.smoothing level (s.rhs level) (s.sol level))
  else s

/-- FAS coarse right-hand-side computation of `NonlinearMG::FAS_Cycle`
(lines 107-117): `help_[l] = A_l(sol_l) - rhs_l`, restricted into
`help_[l+1]`; `sol_[l+1] = Project(sol_l)`;
`rhs_[l+1] = A_{l+1}(sol_[l+1]) - help_[l+1]`. -/
def transferState {V : Type} [Sub V] (ops : FASOps V) (level : ℕ)
    (s : FASState V) : FASState V :=
  let s1 := setHelp s level (ops.A level (s.sol level) - s.rhs level)
  let s2 := setHelp s1 (level + 1) (ops.restrictOp level (s1.help level))
  let s3 := setSol s2 (level + 1) (ops.project level (s2.sol level))
  setRhs s3 (level + 1) (ops.A (level + 1) (s3.sol (level + 1)) - s3.help (level + 1))

/-- Coarse-grid correction of `NonlinearMG::FAS_Cycle` (lines 126-131):
`help_[l] = Interpolate(l+1, help_2 - sol_[l+1])`; `sol_[l] -= help_[l]`,
where `help_2` is the coarse iterate saved before the recursion. -/
def correctState {V : Type} [Sub V] (ops : FASOps V) (level : ℕ) (help2 : V)
    (s : FASState V) : FASState V :=
  let s1 := setHelp s level (ops.interpolate (level + 1) (help2 - s.sol (level + 1)))
  setSol s1 level (s1.sol level - s1.help level)

/-- Post-smoothing step of `NonlinearMG::FAS_Cycle` (line 134), performed
unconditionally. -/
def postsmoothState {V : Type} (ops : FASOps V) (level : ℕ) (s : FASState V) :
    FASState V :=
  setSol s level (ops.smoothing level (s.rhs level) (s.sol level))

/-- `NonlinearMG::FAS_Cycle(level)` from `NonlinearSolver.cpp` lines 93-136.
The first argument is recursion fuel; the C++ recursion depth is bounded by
`num_levels_ - level`, so calls pass `numLevels` as fuel.  At the coarsest
level `num_levels_ - 1` the cycle performs `Solve(level, rhs_[l], sol_[l])`;
otherwise it pre-smooths (V-cycle only), computes the FAS coarse rhs,
saves the coarse iterate (`help_2`), recurses, applies the coarse
correction and post-smooths. -/
def FAS_CycleAux {V : Type} [Sub V] (ops : FASOps V) :
    ℕ → ℕ → FASState V → FASState V
  | 0, _, s => s
  | fuel + 1, level, s =>
    if level = ops.numLevels - 1 then
      setSol s level (ops.coarseSolve level (s.rhs level) (s.sol level))
    else
      let s1 := presmoothState ops level s
      let s2 := transferState ops level s1
      let help2 := s2.sol (level + 1)
      let s3 := FAS_CycleAux ops fuel (level + 1) s2
      postsmoothState ops level (correctState ops level help2 s3)

/-- Variant of `FAS_CycleAux` following the words of the claim that
pre-smoothing happens at every level `l < L-1` regardless of the configured
cycle type: the pre-smoothing is applied unconditionally.  Used to compare
the actual code against the claimed behaviour. -/
def FAS_CycleAlwaysPre {V : Type} [Sub V] (ops : FASOps V) :
    ℕ → ℕ → FASState V → FASState V
  | 0, _, s => s
  | fuel + 1, level, s =>
    if level = ops.numLevels - 1 then
      setSol s level (ops.coarseSolve level (s.rhs level) (s.sol level))
    else
      let s1 := setSol s level (ops.smoothing level (s.rhs level) (s.sol level))
      let s2 := transferState ops level s1
      let help2 := s2.sol (level + 1)
      let s3 := FAS_CycleAlwaysPre ops fuel (level + 1) s2
      postsmoothState ops level (correctState ops level help2 s3)

/-- `NonlinearSolver::ResidualNorm(sol, rhs)` specialised to the finest
level, from `NonlinearSolver.cpp` lines 32-42: the norm of the assembled
true-dof residual `A_0(sol) - rhs`. -/
def residualNorm0 {V : Type} [Sub V] (ops : FASOps V) (sol rhs : V) : ℚ :=
  ops.norm (ops.assembleTrue (ops.A 0 sol - rhs))

/-- Result of `NonlinearMG::Solve`: the returned finest-level solution, the
`converged_` flag, the final outer iteration count `iter_`, and whether the
non-convergence warning was printed. -/
structure SolveResult (V : Type) where
  sol : V
  converged : Bool
  iters : ℕ
  warning : Bool

/-- Query of the convergence flag, `NonlinearSolver::IsConverged()` from
`NonlinearSolver.hpp`. -/
def IsConverged {V : Type} (r : SolveResult V) : Bool := r.converged

/-- The outer iteration loop of `NonlinearMG::Solve` (lines 65-83): at each
iteration compute `resid = ResidualNorm(sol_[0], rhs)` and
`rel_resid = resid / norm`; stop converged when `resid < atol_` or
`rel_resid < rtol_`, otherwise run one `FAS_Cycle(0)`.  The first argument
is the remaining iteration budget; the result carries the final state, the
`converged_` flag and the number of FAS cycles performed. -/
def solveLoop {V : Type} [Sub V] (ops : FASOps V) (atol rtol norm0 : ℚ) :
    ℕ → FASState V → FASState V × Bool × ℕ
  | 0, s => (s, false, 0)
  | n + 1, s =>
    if residualNorm0 ops (s.sol 0) (s.rhs 0) < atol
        ∨ residualNorm0 ops (s.sol 0) (s.rhs 0) / norm0 < rtol then (s, true, 0)
    else
      let r := solveLoop ops atol rtol norm0 n (FAS_CycleAux ops ops.numLevels 0 s)
      (r.1, r.2.1, r.2.2 + 1)

/-- Initial state of `NonlinearMG::Solve`: `rhs_[0] = rhs`, `sol_[0] = sol`
(lines 61-62); the coarser-level and scratch vectors are zero-initialised at
construction (`EllipticNLMG::EllipticNLMG`, `nldarcy.cpp` lines 802-810). -/
def initState {V : Type} [Zero V] (rhs sol : V) : FASState V :=
  { rhs := fun l => if l = 0 then rhs else 0
  , sol := fun l => if l = 0 then sol else 0
  , help := fun _ => 0 }

/-- `NonlinearMG::Solve(rhs, sol)` from `NonlinearSolver.cpp` lines 55-91:
compute `norm = ResidualNorm(zero_vec, rhs)`, run the outer iteration loop,
print a warning when not converged (and `print_level_ >= 0`), and return
`sol_[0]`. -/
def Solve {V : Type} [Sub V] [Zero V] (ops : FASOps V) (atol rtol : ℚ)
    (maxNumIter : ℕ) (printLevel : ℤ) (rhs sol : V) : SolveResult V :=
  let norm0 := residualNorm0 ops 0 rhs
  let r := solveLoop ops atol rtol norm0 maxNumIter (initState rhs sol)
  { sol := r.1.sol 0
  , converged := r.2.1
  , iters := r.2.2
  , warning := !r.2.1 && decide (0 ≤ printLevel) }

/-- Modelled from the spec: the generic single-level nonlinear iteration
loop `NonlinearSolver::Solve(rhs, sol)` whose implementation is not among
the source files (only its declaration and parameters are, in
`NonlinearSolver.hpp`).  Per spec section 4.4/4.5 and the header, the loop
repeats `IterationStep` until the residual norm falls below
`adjusted_tol_ = max(atol_, rtol_ * || rhs ||)` or the iteration cap is
reached; the first list argument is the remaining iteration budget and the
result carries the iterate, the converged flag and the number of steps
taken. -/
def levelSolve {V : Type} (residN : V → ℚ) (step : V → V) (adjTol : ℚ) :
    ℕ → V → V × Bool × ℕ
  | 0, x => (x, false, 0)
  | n + 1, x =>
    if residN x < adjTol then (x, true, 0)
    else
      let r := levelSolve residN step adjTol n (step x)
      (r.1, r.2.1, r.2.2 + 1)

/-- The collaborators of `LevelSolver` at one fixed level (`nldarcy.cpp`):
the piecewise-constant projection `PWConstProject`, the pressure block
extraction `GetBlock(1)`, the maximum absolute entry `AbsMax`, the
nonlinear coefficient `Kappa`, the mixed-matrix product
`MixedMatrix::Mult(kp, x, Ax)`, true-dof assembly, the norm, and the
level's linear solver `Hierarchy::Solve(level, rhs, x)` called after
`RescaleCoefficient` with the current coefficient. -/
structure LevelOps (X P C : Type) where
  pBlock : X → P
  pwProject : P → P
  absMax : P → ℚ
  kappa : P → C
  multWith : C → X → X
  assembleTrue : X → X
  norm : X → ℚ
  linSolve : C → X → X → X

/-- `LevelSolver::ResidualNorm(x, rhs)` (via `NonlinearSolver::ResidualNorm`
and `LevelSolver::Mult`, which first evaluates the coefficient from the
piecewise-constant projection of the current pressure block):
the norm of the assembled true residual `A(kappa(p(x))) x - rhs`. -/
def residualNormL {X P C : Type} [Sub X] (ops : LevelOps X P C)
    (x rhs : X) : ℚ :=
  ops.norm (ops.assembleTrue
    (ops.multWith (ops.kappa (ops.pwProject (ops.pBlock x))) x - rhs))

/-- The halving loop of `LevelSolver::BackTracking` (`nldarcy.cpp` lines
654-690): while fewer than `max_num_backtrack_` halvings have been done and
the current residual norm exceeds `prev_resid_norm`, halve `dx`, add it to
`x` and recompute the residual norm; if the new residual norm exceeds
`0.9` times the norm before the halving, subtract `dx` back and stop.  The
first explicit argument is the remaining halving budget; the result carries
`x`, `dx` and the loop counter `k`. -/
def btLoop {X : Type} [AddCommGroup X] [Module ℚ X]
    (residN : X → X → ℚ) (rhs : X) (prev : ℚ) :
    ℕ → X → X → ℚ → X × X × ℕ
  | 0, x, dx, _ => (x, dx, 0)
  | n + 1, x, dx, rn =>
    if prev < rn then
      let dx1 := (1 / 2 : ℚ) • dx
      let x1 := x + dx1
      let rn1 := residN x1 rhs
      if (9 / 10 : ℚ) * rn < rn1 then (x1 - dx1, dx1, 0)
      else
        let r := btLoop residN rhs prev n x1 dx1 rn1
        (r.1, r.2.1, r.2.2 + 1)
    else (x, dx, 0)

/-- `LevelSolver::BackTracking` (`nldarcy.cpp` lines 616-696).  Unless
`interlopate` is set, first clamp the step: with
`relative_change = AbsMax(PWConstProject(dx_pressure)) * alpha / log(diff_tol)`
(the log-based threshold `std::log(diff_tol_)` is passed in as
`logDiffTol`), if `relative_change > 1` then `dx /= relative_change` and
`x += (relative_change - 1) * dx`.  Then, when `max_num_backtrack_ > 0`,
recompute the residual norm and run the halving loop. -/
def BackTracking {X P C : Type} [AddCommGroup X] [Module ℚ X]
    (ops : LevelOps X P C) (maxNumBacktrack : ℕ) (alpha logDiffTol : ℚ)
    (rhs : X) (prevResidNorm : ℚ) (x dx : X) (interlopate : Bool) :
    X × X × ℕ :=
  let clamped :=
    if interlopate then (x, dx)
    else
      let delta_p := ops.pwProject (ops.pBlock dx)
      let relative_change := ops.absMax delta_p * alpha / logDiffTol
      if 1 < relative_change then
        let dx1 := (1 / relative_change) • dx
        (x + (relative_change - 1) • dx1, dx1)
      else (x, dx)
  if 0 < maxNumBacktrack then
    btLoop (residualNormL ops) rhs prevResidNorm maxNumBacktrack
      clamped.1 clamped.2 (residualNormL ops clamped.1 rhs)
  else (clamped.1, clamped.2, 0)

/-- `LevelSolver::PicardStep(rhs, x)` (`nldarcy.cpp` lines 532-572).  The
hierarchy's current mass-matrix coefficient at this level is threaded
through as the first component of the state.  The step records the previous
residual norm (whose evaluation of `Mult` sets `kp_` from the
piecewise-constant projection of the current pressure), rescales the mass
block by `kp_` (`RescaleCoefficient`), calls the linear solver
`Hierarchy::Solve(level, rhs, x)` with the unmodified right-hand side so
that its output replaces `x`, forms `delta_x = x_old - x_new` and runs the
backtracking safeguard. -/
def PicardStep {X P C : Type} [AddCommGroup X] [Module ℚ X]
    (ops : LevelOps X P C) (maxNumBacktrack : ℕ) (alpha logDiffTol : ℚ)
    (rhs : X) (st : C × X) : C × X :=
  let x := st.2
  let kp := ops.kappa (ops.pwProject (ops.pBlock x))
  let prevResidNorm := residualNormL ops x rhs
  let x1 := ops.linSolve kp rhs x
  let delta_x := x - x1
  (kp, (BackTracking ops maxNumBacktrack alpha logDiffTol rhs prevResidNorm
          x1 delta_x false).1)

/-- Dense matrix-vector product used to model applications of the sparse
transfer operators: row `i` of the result sums `A i j * x j` over the `n`
columns. -/
def matVec (n : ℕ) (A : ℕ → ℕ → ℚ) (x : ℕ → ℚ) : ℕ → ℚ :=
  fun i => ∑ j ∈ Finset.range n, A i j * x j

/-- A block vector over (edge-flux, vertex-pressure) unknowns, the two
blocks of `mfem::BlockVector` delimited by the block offsets. -/
abbrev BlockVec := (ℕ → ℚ) × (ℕ → ℚ)

/-- The transfer data of one level pair in the hierarchy (spec section 3):
the interpolation matrices `Psigma` (fine flux × coarse flux) and `Pu`
(fine pressure × coarse pressure), the projection matrices `Qsigma`, `Qu`
(coarse × fine), and the four dimensions. -/
structure TransferLevel where
  nSigmaFine : ℕ
  nUFine : ℕ
  nSigmaCoarse : ℕ
  nUCoarse : ℕ
  Psigma : ℕ → ℕ → ℚ
  Pu : ℕ → ℕ → ℚ
  Qsigma : ℕ → ℕ → ℚ
  Qu : ℕ → ℕ → ℚ

/-- Modelled from the spec: `Hierarchy::Restrict(level, fineVec)` (called by
`EllipticNLMG::Restrict`, `nldarcy.cpp` lines 842-846), whose implementation
is not among the source files.  Per spec section 4.3 it applies the
transposes of `Psigma` and `Pu` per block. -/
def hRestrict (t : TransferLevel) (v : BlockVec) : BlockVec :=
  (matVec t.nSigmaFine (fun i j => t.Psigma j i) v.1,
   matVec t.nUFine (fun i j => t.Pu j i) v.2)

/-- Modelled from the spec: `Hierarchy::Interpolate(level, coarseVec)`
(called by `EllipticNLMG::Interpolate`), whose implementation is not among
the source files.  Per spec section 4.3 it applies `Psigma` and `Pu` per
block. -/
def hInterpolate (t : TransferLevel) (v : BlockVec) : BlockVec :=
  (matVec t.nSigmaCoarse t.Psigma v.1,
   matVec t.nUCoarse t.Pu v.2)

/-- Modelled from the spec: `Hierarchy::Project(level, fineVec)` (called by
`EllipticNLMG::Project`), whose implementation is not among the source
files.  Per spec section 4.3 it applies a genuine (non-transpose)
projection per block. -/
def hProject (t : TransferLevel) (v : BlockVec) : BlockVec :=
  (matVec t.nSigmaFine t.Qsigma v.1,
   matVec t.nUFine t.Qu v.2)

/-- State-passing form of `EllipticNLMG::Restrict` (a `const` member taking
the hierarchy by reference): the hierarchy data is returned unchanged next
to the output vector. -/
def hRestrictOp (t : TransferLevel) (v : BlockVec) : TransferLevel × BlockVec :=
  (t, hRestrict t v)

/-- State-passing form of `EllipticNLMG::Interpolate` (a `const` member):
the hierarchy data is returned unchanged next to the output vector. -/
def hInterpolateOp (t : TransferLevel) (v : BlockVec) : TransferLevel × BlockVec :=
  (t, hInterpolate t v)

/-- State-passing form of `EllipticNLMG::Project` (a `const` member): the
hierarchy data is returned unchanged next to the output vector. -/
def hProjectOp (t : TransferLevel) (v : BlockVec) : TransferLevel × BlockVec :=
  (t, hProject t v)

/-- A sparse matrix in compressed-sparse-row form, mirroring the arrays
`M_fine_i`, `M_fine_j`, `M_fine_data` handed to `mfem::SparseMatrix`. -/
structure CSRMatrix where
  rowPtr : List ℕ
  colIdx : List ℕ
  data : List ℚ
  height : ℕ
  width : ℕ

/-- Entry `(i, j)` of a CSR matrix: the sum of the stored values with
column index `j` among the positions `rowPtr[i] .. rowPtr[i+1] - 1`. -/
def csrEntry (m : CSRMatrix) (i j : ℕ) : ℚ :=
  (List.range' (m.rowPtr.getD i 0)
      (m.rowPtr.getD (i + 1) 0 - m.rowPtr.getD i 0)).foldr
    (fun k acc => (if m.colIdx.getD k 0 = j then m.data.getD k 0 else 0) + acc) 0

/-- `MixedMatrix::SetMFromWeightVector(weight)` from `NonlinearSolver.hpp`
lines 221-240: row pointers and column indices are `std::iota` sequences
(one entry per row, on the diagonal) and the data is
`1.0 / std::fabs(weight[i])`. -/
def SetMFromWeightVector (weight : List ℚ) : CSRMatrix :=
  { rowPtr := List.range (weight.length + 1)
  , colIdx := List.range weight.length
  , data := weight.map (fun w => 1 / |w|)
  , height := weight.length
  , width := weight.length }

/-- The assertion `assert(M_fine_data[i] != 0.0)` checked (in debug builds)
for every entry of the weight vector in `SetMFromWeightVector`. -/
def setMAssertHolds (weight : List ℚ) : Bool :=
  weight.all (fun w => w != 0)

/-- The row of `graphDT = Transpose(vertex_edge)` for edge `e`: the vertices
incident to `e`, in increasing vertex order (the order produced by the CSR
transpose).  `ve` maps each vertex to its list of incident edges. -/
def constructDColVerts (ve : List (List ℕ)) (e : ℕ) : List ℕ :=
  (List.range ve.length).filter (fun v => decide (e ∈ ve.getD v []))

/-- The data rewrite of `MixedMatrix::ConstructD` (`NonlinearSolver.hpp`
lines 344-360) on one row of `graphDT`: the first entry is set to `1`; a
second entry is set to `-1`; a single entry whose edge is not owned by the
local processor is set to `-1` instead.  Rows of other sizes (excluded by
`assert(row_size == 1 || row_size == 2)`) keep the transposed data. -/
def dRowVals (vals : List ℚ) (owned : Bool) : List ℚ :=
  match vals with
  | [_] => [if owned then 1 else -1]
  | [_, _] => [1, -1]
  | other => other

/-- Entry `(v, e)` of the divergence matrix returned by
`MixedMatrix::ConstructD`: the value stored for vertex `v` in the rewritten
row of `graphDT` for edge `e` (the transposed incidence data is all ones,
`vertex_edge` being a boolean incidence matrix). -/
def constructDEntry (ve : List (List ℕ)) (owned : ℕ → Bool) (v e : ℕ) : ℚ :=
  let verts := constructDColVerts ve e
  let vals := dRowVals (verts.map (fun _ => (1 : ℚ))) (owned e)
  (verts.zip vals).foldr (fun p acc => (if p.1 = v then p.2 else 0) + acc) 0

/-- C1: in the FAS cycle at every level `l < L-1`, the coarse right-hand
side passed to the recursion is
`rhs_{l+1} = A_{l+1}(Project(sol_l)) - Restrict(A_l(sol_l) - rhs_l)`, where
`sol_l` is the current (possibly pre-smoothed) fine iterate; and the cycle
body is exactly pre-smoothing, this transfer, the recursion on the coarse
level, the coarse correction and post-smoothing. -/
theorem fas_coarse_rhs_formula {V : Type} [Sub V] (ops : FASOps V)
    (fuel level : ℕ) (s : FASState V) (h : level < ops.numLevels - 1) :
    (transferState ops level (presmoothState ops level s)).rhs (level + 1)
        = ops.A (level + 1)
            (ops.project level ((presmoothState ops level s).sol level))
          - ops.restrictOp level
              (ops.A level ((presmoothState ops level s).sol level)
                - (presmoothState ops level s).rhs level)
    ∧ FAS_CycleAux ops (fuel + 1) level s
        = postsmoothState ops level
            (correctState ops level
              ((transferState ops level (presmoothState ops level s)).sol (level + 1))
              (FAS_CycleAux ops fuel (level + 1)
                (transferState ops level (presmoothState ops level s)))) := by
  constructor
  · simp [transferState]
  · have hne : level ≠ ops.numLevels - 1 := Nat.ne_of_lt h
    simp only [FAS_CycleAux, if_neg hne]

/-- Concrete two-level FAS instance used to witness `fas_coarse_rhs_formula`. -/
def opsC1 : FASOps ℚ :=
  { numLevels := 2
  , cycle := Cycle.V_CYCLE
  , A := fun _ x => x * x
  , restrictOp := fun _ x => x + 1
  , interpolate := fun _ x => x
  , project := fun _ x => x * 2
  , smoothing := fun _ rhs sol => sol + rhs
  , coarseSolve := fun _ rhs _ => rhs
  , assembleTrue := id
  , norm := fun x => |x| }

/-- Concrete FAS state used to witness `fas_coarse_rhs_formula`. -/
def sC1 : FASState ℚ :=
  { rhs := fun _ => 1, sol := fun _ => 2, help := fun _ => 0 }

/-- Witness for C1: the coarse-rhs formula evaluated at a concrete two-level
instance. -/
theorem fas_coarse_rhs_formula_witness :
    0 < opsC1.numLevels - 1 ∧
    (transferState opsC1 0 (presmoothState opsC1 0 sC1)).rhs 1
      = opsC1.A 1 (opsC1.project 0 ((presmoothState opsC1 0 sC1).sol 0))
        - opsC1.restrictOp 0
            (opsC1.A 0 ((presmoothState opsC1 0 sC1).sol 0)
              - (presmoothState opsC1 0 sC1).rhs 0) :=
  ⟨by decide, (fas_coarse_rhs_formula opsC1 0 0 sC1 (by decide)).1⟩

@[simp] theorem initState_sol_zero {V : Type} [Zero V] (rhs sol : V) :
    (initState rhs sol).sol 0 = sol := rfl

@[simp] theorem initState_rhs_zero {V : Type} [Zero V] (rhs sol : V) :
    (initState rhs sol).rhs 0 = rhs := rfl

/-- C2: if the initial guess already satisfies the outer convergence test
(absolute residual norm of `A(sol) - rhs` below `atol`, or residual norm
relative to the norm of `A(0) - rhs` below `rtol`), then `NonlinearMG::Solve`
performs zero FAS cycles, sets the `converged_` flag, returns `sol` unchanged
and prints no warning. -/
theorem solve_zero_cycles {V : Type} [Sub V] [Zero V] (ops : FASOps V)
    (atol rtol : ℚ) (maxNumIter : ℕ) (printLevel : ℤ) (rhs sol : V)
    (hmax : 1 ≤ maxNumIter)
    (hconv : residualNorm0 ops sol rhs < atol
      ∨ residualNorm0 ops sol rhs / residualNorm0 ops 0 rhs < rtol) :
    Solve ops atol rtol maxNumIter printLevel rhs sol
      = { sol := sol, converged := true, iters := 0, warning := false } := by
  cases maxNumIter with
  | zero => exact absurd hmax (by omega)
  | succ n =>
    have hstep : solveLoop ops atol rtol (residualNorm0 ops 0 rhs) (n + 1)
        (initState rhs sol) = (initState rhs sol, true, 0) := by
      simp only [solveLoop, initState_sol_zero, initState_rhs_zero]
      rw [if_pos hconv]
    simp only [Solve, hstep]
    simp

/-- Concrete one-level instance used to witness `solve_zero_cycles`. -/
def opsC2 : FASOps ℚ :=
  { numLevels := 1
  , cycle := Cycle.V_CYCLE
  , A := fun _ x => x
  , restrictOp := fun _ x => x
  , interpolate := fun _ x => x
  , project := fun _ x => x
  , smoothing := fun _ _ sol => sol
  , coarseSolve := fun _ _ sol => sol
  , assembleTrue := id
  , norm := fun _ => 0 }

/-- Witness for C2: an initial guess with zero residual makes `Solve` return
immediately with the converged flag set and zero cycles. -/
theorem solve_zero_cycles_witness :
    (1 ≤ 3 ∧ (residualNorm0 opsC2 (0 : ℚ) 0 < 1
        ∨ residualNorm0 opsC2 (0 : ℚ) 0 / residualNorm0 opsC2 0 0 < 1)) ∧
    Solve opsC2 1 1 3 0 (0 : ℚ) 0
      = { sol := 0, converged := true, iters := 0, warning := false } :=
  ⟨⟨by omega, Or.inl (by norm_num [residualNorm0, opsC2])⟩,
    solve_zero_cycles opsC2 1 1 3 0 0 0 (by omega)
      (Or.inl (by norm_num [residualNorm0, opsC2]))⟩

/-- The outer loop, when it ends not converged, has run its full iteration
budget, performing one FAS cycle per iteration. -/
theorem solveLoop_of_not_converged {V : Type} [Sub V] (ops : FASOps V)
    (atol rtol norm0 : ℚ) :
    ∀ (n : ℕ) (s : FASState V),
      (solveLoop ops atol rtol norm0 n s).2.1 = false →
      solveLoop ops atol rtol norm0 n s
        = ((fun t => FAS_CycleAux ops ops.numLevels 0 t)^[n] s, false, n) := by
  intro n
  induction n with
  | zero => intro s _; simp [solveLoop]
  | succ n ih =>
    intro s h
    by_cases hc : residualNorm0 ops (s.sol 0) (s.rhs 0) < atol
        ∨ residualNorm0 ops (s.sol 0) (s.rhs 0) / norm0 < rtol
    · simp [solveLoop, if_pos hc] at h
    · simp only [solveLoop, if_neg hc] at h ⊢
      rw [ih _ h]
      simp [Function.iterate_succ_apply]

/-- C7: when `NonlinearMG::Solve` exhausts its maximum outer-iteration count
without meeting the convergence test, it returns normally: the output is the
last computed iterate (the max-iteration-fold FAS cycle applied to the
initial state), the converged flag queryable through `IsConverged` is
`false`, the iteration count equals the cap, and the diagnostic warning is
emitted exactly when `print_level_ >= 0`. -/
theorem solve_nonconvergence {V : Type} [Sub V] [Zero V] (ops : FASOps V)
    (atol rtol : ℚ) (maxNumIter : ℕ) (printLevel : ℤ) (rhs sol : V)
    (h : IsConverged (Solve ops atol rtol maxNumIter printLevel rhs sol) = false) :
    Solve ops atol rtol maxNumIter printLevel rhs sol
      = { sol := ((fun t => FAS_CycleAux ops ops.numLevels 0 t)^[maxNumIter]
                    (initState rhs sol)).sol 0
        , converged := false
        , iters := maxNumIter
        , warning := decide (0 ≤ printLevel) } := by
  have h' : (solveLoop ops atol rtol (residualNorm0 ops 0 rhs) maxNumIter
      (initState rhs sol)).2.1 = false := h
  simp only [Solve]
  rw [solveLoop_of_not_converged ops atol rtol _ maxNumIter _ h']
  simp

/-- Concrete one-level non-converging instance used to witness
`solve_nonconvergence`. -/
def opsC7 : FASOps ℚ :=
  { numLevels := 1
  , cycle := Cycle.V_CYCLE
  , A := fun _ x => x
  , restrictOp := fun _ x => x
  , interpolate := fun _ x => x
  , project := fun _ x => x
  , smoothing := fun _ _ sol => sol
  , coarseSolve := fun _ _ sol => sol
  , assembleTrue := id
  , norm := fun _ => 1 }

/-- The convergence test of the witness instance `opsC7` never succeeds:
its norm is the constant one and its tolerances are zero. -/
theorem opsC7_never_converges :
    IsConverged (Solve opsC7 0 0 2 0 (1 : ℚ) 0) = false := by
  norm_num [IsConverged, Solve, solveLoop, residualNorm0, opsC7, initState,
    FAS_CycleAux, setSol]

/-- Witness for C7: with zero tolerances and a stagnating coarse solver the
iteration cap is reached; `Solve` reports non-convergence with the warning
flag and the full iteration count. -/
theorem solve_nonconvergence_witness :
    IsConverged (Solve opsC7 0 0 2 0 (1 : ℚ) 0) = false ∧
    Solve opsC7 0 0 2 0 (1 : ℚ) 0
      = { sol := ((fun t => FAS_CycleAux opsC7 opsC7.numLevels 0 t)^[2]
                    (initState 1 0)).sol 0
        , converged := false
        , iters := 2
        , warning := decide ((0 : ℤ) ≤ 0) } :=
  ⟨opsC7_never_converges, solve_nonconvergence opsC7 0 0 2 0 1 0 opsC7_never_converges⟩

/-- C3: at the coarsest level `L-1` the FAS cycle performs the virtual
per-level `Solve(level, rhs_[level], sol_[level])` — realised by the
nonlinear level solver's convergence-checked iteration loop — rather than a
fixed number of smoothing steps: the loop returns as soon as its residual
test holds (zero further steps), and whenever it reports convergence the
returned iterate actually satisfies the residual tolerance. -/
theorem fas_coarsest_direct_solve {V : Type} [Sub V] (ops : FASOps V)
    (fuel level : ℕ) (s : FASState V) (h : level = ops.numLevels - 1) :
    FAS_CycleAux ops (fuel + 1) level s
        = setSol s level (ops.coarseSolve level (s.rhs level) (s.sol level))
    ∧ (∀ (residN : V → ℚ) (step : V → V) (adjTol : ℚ) (n : ℕ) (x : V),
        residN x < adjTol → levelSolve residN step adjTol (n + 1) x = (x, true, 0))
    ∧ (∀ (residN : V → ℚ) (step : V → V) (adjTol : ℚ) (n : ℕ) (x : V),
        (levelSolve residN step adjTol n x).2.1 = true →
          residN (levelSolve residN step adjTol n x).1 < adjTol) := by
  refine ⟨?_, ?_, ?_⟩
  · simp only [FAS_CycleAux, if_pos h]
  · intro residN step adjTol n x hx
    simp [levelSolve, if_pos hx]
  · intro residN step adjTol n
    induction n with
    | zero =>
      intro x hx
      simp [levelSolve] at hx
    | succ n ih =>
      intro x hx
      by_cases hc : residN x < adjTol
      · simp only [levelSolve, if_pos hc]
        exact hc
      · simp only [levelSolve, if_neg hc] at hx ⊢
        exact ih (step x) hx

/-- Concrete single-level instance used to witness
`fas_coarsest_direct_solve`. -/
def opsC3 : FASOps ℚ :=
  { numLevels := 1
  , cycle := Cycle.V_CYCLE
  , A := fun _ x => x
  , restrictOp := fun _ x => x
  , interpolate := fun _ x => x
  , project := fun _ x => x
  , smoothing := fun _ _ sol => sol
  , coarseSolve := fun _ rhs _ => rhs + 3
  , assembleTrue := id
  , norm := fun _ => 0 }

/-- Concrete FAS state used to witness `fas_coarsest_direct_solve`. -/
def sC3 : FASState ℚ :=
  { rhs := fun _ => 2, sol := fun _ => 0, help := fun _ => 0 }

/-- Witness for C3: on a one-level hierarchy the cycle reduces to the
coarsest-level solve. -/
theorem fas_coarsest_direct_solve_witness :
    (0 = opsC3.numLevels - 1) ∧
    FAS_CycleAux opsC3 1 0 sC3
      = setSol sC3 0 (opsC3.coarseSolve 0 (sC3.rhs 0) (sC3.sol 0)) :=
  ⟨by decide, (fas_coarsest_direct_solve opsC3 0 0 sC3 (by decide)).1⟩

/-- Concrete two-level FMG instance on which the FAS cycle does not
pre-smooth, refuting C4 as stated. -/
def opsC4 : FASOps ℚ :=
  { numLevels := 2
  , cycle := Cycle.FMG
  , A := fun _ x => x
  , restrictOp := fun _ _ => 0
  , interpolate := fun _ x => x
  , project := fun _ x => x
  , smoothing := fun _ _ sol => sol + 10
  , coarseSolve := fun _ rhs _ => rhs
  , assembleTrue := id
  , norm := fun _ => 0 }

/-- Concrete FAS state for the C4 counterexample and the amended C4
witness. -/
def sC4 : FASState ℚ :=
  { rhs := fun _ => 1, sol := fun _ => 0, help := fun _ => 0 }

/-- C4 counterexample: with cycle type FMG the FAS cycle skips the
pre-smoothing (`NonlinearSolver.cpp` line 102 guards it by
`cycle_ == V_CYCLE`), so on this concrete two-level instance the actual
cycle differs from the always-pre-smoothing cycle described by the claim:
the finest solutions are 10 and 20 respectively. -/
theorem fas_presmooth_counterexample :
    (FAS_CycleAux opsC4 2 0 sC4).sol 0 ≠ (FAS_CycleAlwaysPre opsC4 2 0 sC4).sol 0 := by
  have hFMG : ¬(Cycle.FMG = Cycle.V_CYCLE) := by decide
  norm_num [FAS_CycleAux, FAS_CycleAlwaysPre, opsC4, sC4, presmoothState,
    transferState, correctState, postsmoothState, setSol, setRhs, setHelp, hFMG]

/-- C4 amended: pre-smoothing before the coarse transfer happens exactly
when the configured cycle type is V-cycle; in that case the FAS cycle
coincides at every level with the always-pre-smoothing cycle the claim
describes (for FMG the pre-smoothing is skipped, see the counterexample). -/
theorem fas_presmooth_vcycle {V : Type} [Sub V] (ops : FASOps V)
    (h : ops.cycle = Cycle.V_CYCLE) :
    ∀ (fuel level : ℕ) (s : FASState V),
      FAS_CycleAux ops fuel level s = FAS_CycleAlwaysPre ops fuel level s := by
  intro fuel
  induction fuel with
  | zero => intro level s; rfl
  | succ n ih =>
    intro level s
    by_cases hl : level = ops.numLevels - 1
    · simp only [FAS_CycleAux, FAS_CycleAlwaysPre, if_pos hl]
    · simp only [FAS_CycleAux, FAS_CycleAlwaysPre, if_neg hl,
        presmoothState, if_pos h]
      rw [ih]

/-- The C4 counterexample instance with the cycle type switched to V-cycle,
used to witness the amended claim. -/
def opsC4v : FASOps ℚ :=
  { opsC4 with cycle := Cycle.V_CYCLE }

/-- Witness for the amended C4: with the V-cycle type the actual cycle and
the always-pre-smoothing cycle agree on a concrete two-level instance. -/
theorem fas_presmooth_vcycle_witness :
    opsC4v.cycle = Cycle.V_CYCLE ∧
    FAS_CycleAux opsC4v 2 0 sC4 = FAS_CycleAlwaysPre opsC4v 2 0 sC4 :=
  ⟨rfl, fas_presmooth_vcycle opsC4v rfl 2 0 sC4⟩

/-- C5: a Picard step evaluates the nonlinear coefficient from the
piecewise-constant projection of the current pressure block, rescales the
mass block by it (the hierarchy coefficient state becomes `kp`), and calls
the level's linear solver with exactly the right-hand side passed into the
step; when the pressure-change clamp is inactive and backtracking is off,
the solver output directly replaces the iterate (fixed-point substitution,
not an added correction). -/
theorem picard_fixed_point_substitution {X P C : Type} [AddCommGroup X]
    [Module ℚ X] (ops : LevelOps X P C) (alpha logDiffTol : ℚ) (rhs : X)
    (st : C × X)
    (hclamp : ¬ 1 < ops.absMax (ops.pwProject (ops.pBlock
        (st.2 - ops.linSolve (ops.kappa (ops.pwProject (ops.pBlock st.2))) rhs st.2)))
        * alpha / logDiffTol) :
    PicardStep ops 0 alpha logDiffTol rhs st
      = (ops.kappa (ops.pwProject (ops.pBlock st.2)),
         ops.linSolve (ops.kappa (ops.pwProject (ops.pBlock st.2))) rhs st.2) := by
  simp only [PicardStep, BackTracking, Bool.false_eq_true, if_false, if_neg hclamp]
  simp

/-- Concrete level-solver collaborators used to witness
`picard_fixed_point_substitution`. -/
def lopsC5 : LevelOps ℚ ℚ ℚ :=
  { pBlock := fun x => x
  , pwProject := fun p => p
  , absMax := fun _ => 0
  , kappa := fun p => p + 1
  , multWith := fun c x => c * x
  , assembleTrue := id
  , norm := fun x => x * x
  , linSolve := fun c rhs x => c + rhs + x }

/-- Witness for C5: a concrete Picard step with the clamp inactive returns
the coefficient evaluated at the current pressure and the linear solve of
the unmodified right-hand side. -/
theorem picard_fixed_point_substitution_witness :
    (¬ 1 < lopsC5.absMax (lopsC5.pwProject (lopsC5.pBlock
        ((2 : ℚ) - lopsC5.linSolve (lopsC5.kappa (lopsC5.pwProject (lopsC5.pBlock 2))) 5 2)))
        * 3 / 7) ∧
    PicardStep lopsC5 0 3 7 5 (0, 2)
      = (lopsC5.kappa (lopsC5.pwProject (lopsC5.pBlock 2)),
         lopsC5.linSolve (lopsC5.kappa (lopsC5.pwProject (lopsC5.pBlock 2))) 5 2) :=
  ⟨by norm_num [lopsC5],
    picard_fixed_point_substitution lopsC5 3 7 5 (0, 2) (by norm_num [lopsC5])⟩

/-- C6: behaviour of the backtracking halving loop.  After clamping (skipped
here via `interlopate`), the loop (i) performs at most `max_num_backtrack_`
halvings, (ii) does nothing unless the current residual norm exceeds the
previous one, (iii) when a halving raises the residual norm above `0.9`
times its pre-halving value, subtracts the added half-step back (returning
to the pre-halving iterate) and stops, (iv) otherwise counts the halving
and continues with the halved step, and (v) `BackTracking` with a positive
backtracking budget runs exactly this loop on the recomputed residual
norm. -/
theorem backtracking_halving_spec {X P C : Type} [AddCommGroup X] [Module ℚ X] :
    (∀ (residN : X → X → ℚ) (rhs : X) (prev : ℚ) (n : ℕ) (x dx : X) (rn : ℚ),
        (btLoop residN rhs prev n x dx rn).2.2 ≤ n)
    ∧ (∀ (residN : X → X → ℚ) (rhs : X) (prev : ℚ) (n : ℕ) (x dx : X) (rn : ℚ),
        ¬ prev < rn → btLoop residN rhs prev (n + 1) x dx rn = (x, dx, 0))
    ∧ (∀ (residN : X → X → ℚ) (rhs : X) (prev : ℚ) (n : ℕ) (x dx : X) (rn : ℚ),
        prev < rn →
        (9 / 10 : ℚ) * rn < residN (x + (1 / 2 : ℚ) • dx) rhs →
        btLoop residN rhs prev (n + 1) x dx rn = (x, (1 / 2 : ℚ) • dx, 0))
    ∧ (∀ (residN : X → X → ℚ) (rhs : X) (prev : ℚ) (n : ℕ) (x dx : X) (rn : ℚ),
        prev < rn →
        ¬ ((9 / 10 : ℚ) * rn < residN (x + (1 / 2 : ℚ) • dx) rhs) →
        btLoop residN rhs prev (n + 1) x dx rn
          = ((btLoop residN rhs prev n (x + (1 / 2 : ℚ) • dx) ((1 / 2 : ℚ) • dx)
                (residN (x + (1 / 2 : ℚ) • dx) rhs)).1,
             (btLoop residN rhs prev n (x + (1 / 2 : ℚ) • dx) ((1 / 2 : ℚ) • dx)
                (residN (x + (1 / 2 : ℚ) • dx) rhs)).2.1,
             (btLoop residN rhs prev n (x + (1 / 2 : ℚ) • dx) ((1 / 2 : ℚ) • dx)
                (residN (x + (1 / 2 : ℚ) • dx) rhs)).2.2 + 1))
    ∧ (∀ (ops : LevelOps X P C) (maxBT : ℕ) (alpha ldt : ℚ) (rhs : X)
          (prev : ℚ) (x dx : X), 0 < maxBT →
        BackTracking ops maxBT alpha ldt rhs prev x dx true
          = btLoop (residualNormL ops) rhs prev maxBT x dx
              (residualNormL ops x rhs)) := by
  refine ⟨?_, ?_, ?_, ?_, ?_⟩
  · intro residN rhs prev n
    induction n with
    | zero => intro x dx rn; simp [btLoop]
    | succ n ih =>
      intro x dx rn
      by_cases h1 : prev < rn
      · by_cases h2 : (9 / 10 : ℚ) * rn < residN (x + (1 / 2 : ℚ) • dx) rhs
        · simp only [btLoop, if_pos h1, if_pos h2]
          exact Nat.zero_le _
        · simp only [btLoop, if_pos h1, if_neg h2]
          exact Nat.succ_le_succ (ih _ _ _)
      · simp only [btLoop, if_neg h1]
        exact Nat.zero_le _
  · intro residN rhs prev n x dx rn h
    simp only [btLoop, if_neg h]
  · intro residN rhs prev n x dx rn h1 h2
    simp only [btLoop, if_pos h1, if_pos h2, add_sub_cancel_right]
  · intro residN rhs prev n x dx rn h1 h2
    simp only [btLoop, if_pos h1, if_neg h2]
  · intro ops maxBT alpha ldt rhs prev x dx h
    simp [BackTracking, if_pos h]

/-- Witness for C6: a concrete halving that stalls (improvement below 10%)
is undone, returning the pre-halving iterate with the halved step. -/
theorem backtracking_halving_spec_witness :
    ((1 : ℚ) < 3 ∧ (9 / 10 : ℚ) * 3 < (4 : ℚ) + (1 / 2 : ℚ) • (2 : ℚ)) ∧
    btLoop (fun x (_ : ℚ) => x) (0 : ℚ) 1 (2 + 1) 4 2 3
      = (4, (1 / 2 : ℚ) • (2 : ℚ), 0) :=
  ⟨⟨by norm_num, by norm_num [smul_eq_mul]⟩,
    (backtracking_halving_spec (X := ℚ) (P := ℚ) (C := ℚ)).2.2.1
      (fun x _ => x) 0 1 2 4 2 3 (by norm_num) (by norm_num [smul_eq_mul])⟩

/-- The matrix-vector product is linear in the vector argument. -/
theorem matVec_linear (n : ℕ) (A : ℕ → ℕ → ℚ) (a : ℚ) (x y : ℕ → ℚ) :
    matVec n A (a • x + y) = a • matVec n A x + matVec n A y := by
  funext i
  simp only [matVec, Pi.add_apply, Pi.smul_apply, smul_eq_mul]
  rw [Finset.mul_sum, ← Finset.sum_add_distrib]
  exact Finset.sum_congr rfl (fun j _ => by ring)

/-- C8: for every level's transfer data and all input block vectors, the
Restrict, Interpolate and Project operations are linear, return the
hierarchy data unchanged next to the output vector (no state of the
hierarchy or multigrid object is modified), and two calls with the same
arguments produce the same result. -/
theorem transfer_ops_linear_pure (t : TransferLevel) (a : ℚ) (x y : BlockVec) :
    hRestrict t (a • x + y) = a • hRestrict t x + hRestrict t y
    ∧ hInterpolate t (a • x + y) = a • hInterpolate t x + hInterpolate t y
    ∧ hProject t (a • x + y) = a • hProject t x + hProject t y
    ∧ (hRestrictOp t x).1 = t
    ∧ (hInterpolateOp t x).1 = t
    ∧ (hProjectOp t x).1 = t
    ∧ (hRestrictOp t x).2 = hRestrict t x
    ∧ (hInterpolateOp t x).2 = hInterpolate t x
    ∧ (hProjectOp t x).2 = hProject t x
    ∧ (x = y →
        hRestrict t x = hRestrict t y
        ∧ hInterpolate t x = hInterpolate t y
        ∧ hProject t x = hProject t y) := by
  refine ⟨?_, ?_, ?_, rfl, rfl, rfl, rfl, rfl, rfl, ?_⟩
  · exact Prod.ext (matVec_linear _ _ _ _ _) (matVec_linear _ _ _ _ _)
  · exact Prod.ext (matVec_linear _ _ _ _ _) (matVec_linear _ _ _ _ _)
  · exact Prod.ext (matVec_linear _ _ _ _ _) (matVec_linear _ _ _ _ _)
  · rintro rfl
    exact ⟨rfl, rfl, rfl⟩

/-- Concrete transfer data used to witness `transfer_ops_linear_pure`. -/
def tC8 : TransferLevel :=
  { nSigmaFine := 1, nUFine := 1, nSigmaCoarse := 1, nUCoarse := 1
  , Psigma := fun _ _ => 2, Pu := fun _ _ => 3
  , Qsigma := fun _ _ => 4, Qu := fun _ _ => 5 }

/-- Concrete block vector used to witness `transfer_ops_linear_pure`. -/
def xC8 : BlockVec := (fun _ => 1, fun _ => 1)

/-- Witness for C8: purity and determinism of the transfer operations on a
concrete level. -/
theorem transfer_ops_linear_pure_witness :
    (hRestrictOp tC8 xC8).1 = tC8 ∧ hProject tC8 xC8 = hProject tC8 xC8 := by
  obtain ⟨-, -, -, h4, -, -, -, -, -, h10⟩ := transfer_ops_linear_pure tC8 2 xC8 xC8
  exact ⟨h4, (h10 rfl).2.2⟩

/-- Entry computation for the matrix built by `SetMFromWeightVector`: the
row pointers are consecutive, so row `i` holds the single stored value
`1 / |weight[i]|` in column `i`. -/
theorem setM_entry (w : List ℚ) (i j : ℕ) (hi : i < w.length) :
    csrEntry (SetMFromWeightVector w) i j
      = if i = j then 1 / |w.getD i 0| else 0 := by
  have h1 : (List.range (w.length + 1)).getD i 0 = i := by
    simp [List.getD_eq_getElem?_getD, List.getElem?_range, Nat.lt_succ_of_lt hi]
  have h2 : (List.range (w.length + 1)).getD (i + 1) 0 = i + 1 := by
    simp [List.getD_eq_getElem?_getD, List.getElem?_range, Nat.succ_lt_succ hi]
  have h3 : (List.range w.length).getD i 0 = i := by
    simp [List.getD_eq_getElem?_getD, List.getElem?_range, hi]
  have h4 : (w.map (fun c => 1 / |c|)).getD i 0 = 1 / |w.getD i 0| := by
    simp [List.getD_eq_getElem?_getD, List.getElem?_map, List.getElem?_eq_getElem, hi]
  simp only [csrEntry, SetMFromWeightVector, h1, h2]
  rw [show i + 1 - i = 1 from by omega]
  rw [show List.range' i 1 = [i] from rfl]
  simp only [List.foldr_cons, List.foldr_nil, h3, h4, add_zero]

/-- A list entry read through `getD` within bounds is a member of the
list. -/
theorem getD_mem_of_lt (w : List ℚ) (i : ℕ) (h : i < w.length) :
    w.getD i 0 ∈ w := by
  rw [List.getD_eq_getElem?_getD, List.getElem?_eq_getElem h]
  exact List.getElem_mem h

/-- C9: for a weight vector with all entries nonzero,
`MixedMatrix::SetMFromWeightVector` produces a square matrix of the weight
vector's size that is diagonal with `i`-th diagonal entry `1 / |weight[i]|`;
every diagonal entry is strictly positive (also for negative weights); and
any zero weight entry violates the assert-only precondition. -/
theorem setM_diagonal (w : List ℚ) :
    ((∀ c ∈ w, c ≠ 0) →
      ∀ i j : ℕ, i < w.length → j < w.length →
        (csrEntry (SetMFromWeightVector w) i j
            = if i = j then 1 / |w.getD i 0| else 0)
        ∧ (i = j → 0 < csrEntry (SetMFromWeightVector w) i j))
    ∧ (SetMFromWeightVector w).height = w.length
    ∧ (SetMFromWeightVector w).width = w.length
    ∧ (∀ c ∈ w, c = 0 → setMAssertHolds w = false) := by
  refine ⟨?_, rfl, rfl, ?_⟩
  · intro hw i j hi _
    refine ⟨setM_entry w i j hi, ?_⟩
    intro hij
    rw [setM_entry w i j hi, if_pos hij]
    exact one_div_pos.mpr (abs_pos.mpr (hw _ (getD_mem_of_lt w i hi)))
  · intro c hc hc0
    subst hc0
    simp only [setMAssertHolds, List.all_eq_false]
    exact ⟨0, hc, by simp⟩

/-- Concrete weight vector (with a negative entry) used to witness
`setM_diagonal`. -/
def w9 : List ℚ := [2, -3]

/-- Concrete weight vector with a zero entry used to witness the assert
part of `setM_diagonal`. -/
def w9z : List ℚ := [0]

/-- Witness for C9: the matrix built from the weights `[2, -3]` has diagonal
entries `1/2` and `1/3` (both positive) and zero off the diagonal; the zero
weight vector `[0]` fails the assert. -/
theorem setM_diagonal_witness :
    ((∀ c ∈ w9, c ≠ 0)
      ∧ csrEntry (SetMFromWeightVector w9) 1 1 = 1 / |w9.getD 1 0|
      ∧ 0 < csrEntry (SetMFromWeightVector w9) 1 1
      ∧ csrEntry (SetMFromWeightVector w9) 0 1 = 0)
    ∧ ((0 : ℚ) ∈ w9z ∧ setMAssertHolds w9z = false) := by
  have hw : ∀ c ∈ w9, c ≠ 0 := by
    intro c hc
    fin_cases hc <;> norm_num
  have hlen : w9.length = 2 := rfl
  refine ⟨⟨hw, ?_, ?_, ?_⟩, ?_, ?_⟩
  · have h := ((setM_diagonal w9).1 hw 1 1 (by omega) (by omega)).1
    simpa using h
  · exact ((setM_diagonal w9).1 hw 1 1 (by omega) (by omega)).2 rfl
  · have h := ((setM_diagonal w9).1 hw 0 1 (by omega) (by omega)).1
    simpa using h
  · simp [w9z]
  · exact (setM_diagonal w9z).2.2.2 0 (by simp [w9z]) rfl

/-- The incident-vertex list of an edge has no duplicates: it is a filter
of the ascending vertex range. -/
theorem constructDColVerts_nodup (ve : List (List ℕ)) (e : ℕ) :
    (constructDColVerts ve e).Nodup :=
  (List.nodup_range _).filter _

/-- C10: in the divergence matrix built by `MixedMatrix::ConstructD`, the
column of an edge with two incident vertices has exactly two nonzero
entries, `+1` for the first incident vertex and `-1` for the second; the
column of an edge with a single incident local vertex has the single entry
`+1` when the edge is owned by the local process and `-1` when it is an
unowned shared edge. -/
theorem constructD_columns (ve : List (List ℕ)) (owned : ℕ → Bool) (e : ℕ) :
    (∀ v1 v2 : ℕ, constructDColVerts ve e = [v1, v2] →
      constructDEntry ve owned v1 e = 1
      ∧ constructDEntry ve owned v2 e = -1
      ∧ ∀ v : ℕ, v ≠ v1 → v ≠ v2 → constructDEntry ve owned v e = 0)
    ∧ (∀ v1 : ℕ, constructDColVerts ve e = [v1] →
      constructDEntry ve owned v1 e = (if owned e then 1 else -1)
      ∧ ∀ v : ℕ, v ≠ v1 → constructDEntry ve owned v e = 0) := by
  constructor
  · intro v1 v2 h
    have hnd := constructDColVerts_nodup ve e
    rw [h] at hnd
    have hne : v1 ≠ v2 := by
      simp only [List.nodup_cons, List.mem_singleton] at hnd
      exact hnd.1
    refine ⟨?_, ?_, ?_⟩
    · simp [constructDEntry, h, dRowVals, Ne.symm hne]
    · simp [constructDEntry, h, dRowVals, hne]
    · intro v hv1 hv2
      simp [constructDEntry, h, dRowVals, Ne.symm hv1, Ne.symm hv2]
  · intro v1 h
    refine ⟨?_, ?_⟩
    · simp [constructDEntry, h, dRowVals]
    · intro v hv1
      simp [constructDEntry, h, dRowVals, Ne.symm hv1]

/-- Concrete vertex-to-edge incidence used to witness `constructD_columns`:
edge 0 joins vertices 0 and 1, edge 1 touches only vertex 0. -/
def ve10 : List (List ℕ) := [[0, 1], [0]]

/-- Concrete edge ownership used to witness `constructD_columns`: only edge
0 is owned by the local process. -/
def owned10 : ℕ → Bool := fun e => e == 0

/-- Witness for C10: on a concrete local graph the two-vertex edge column is
`(+1, -1)` and zero elsewhere, and the unowned single-vertex edge column is
`-1`. -/
theorem constructD_columns_witness :
    (constructDColVerts ve10 0 = [0, 1]
      ∧ constructDEntry ve10 owned10 0 0 = 1
      ∧ constructDEntry ve10 owned10 1 0 = -1
      ∧ constructDEntry ve10 owned10 2 0 = 0)
    ∧ (constructDColVerts ve10 1 = [0]
      ∧ constructDEntry ve10 owned10 0 1 = (if owned10 1 then 1 else -1)) := by
  have h2 := (constructD_columns ve10 owned10 0).1 0 1 (by decide)
  have h1 := (constructD_columns ve10 owned10 1).2 0 (by decide)
  exact ⟨⟨by decide, h2.1, h2.2.1, h2.2.2 2 (by decide) (by decide)⟩,
    ⟨by decide, h1.1⟩⟩

end SmoothG
